import Mathlib

/-!
Verification development for the bato image-host fixer userscript
(`src/fixer.js`).  The script repairs broken image URLs of the form
`scheme://<letters><digits>.<root>.<org|net|to><path>` by generating
prioritized candidate URLs ('k'/'n' prefix swaps, server-index sweeps,
mirror roots), probing them, and caching outcomes.

The embedding below translates the first script variant (the one with the
strict k/n candidate filter) plus, in namespace `V4`, the candidate
generator of the fourth variant (the one with the wider prefix alphabet).
JavaScript strings are modelled as Lean `String`s (lists of characters),
the `SUBDOMAIN_RE` regular expression as an equivalent deterministic
matcher (the character classes of adjacent groups are disjoint, so the
regex backtracking collapses to maximal-munch spans), the `failedCache`
set as a `List String` with membership, the per-group `serverCache` entry
as an `Option Cached`, and the asynchronous image probe as a function of
an explicit network-outcome oracle.
-/

/-- ASCII lowercasing of one character, as JavaScript `toLowerCase` acts on
the ASCII letters that can occur in the matched groups. -/
def lowerC (c : Char) : Char :=
  if 65 ≤ c.toNat ∧ c.toNat ≤ 90 then Char.ofNat (c.toNat + 32) else c

/-- The regex class `[a-z]` under the `i` flag: ASCII letters. -/
def isAlphaC (c : Char) : Bool :=
  (97 ≤ c.toNat && c.toNat ≤ 122) || (65 ≤ c.toNat && c.toNat ≤ 90)

/-- The regex class `\d`: ASCII digits. -/
def isDigitC (c : Char) : Bool :=
  48 ≤ c.toNat && c.toNat ≤ 57

/-- The regex class `[a-z0-9-]` under the `i` flag. -/
def isRootC (c : Char) : Bool :=
  isAlphaC c || isDigitC c || c == '-'

/-- The JavaScript regex `.` (no `s` flag): any character except the four
line terminators. -/
def isUrlDotC (c : Char) : Bool :=
  !(c == '\n' || c == '\r' || c == Char.ofNat 0x2028 || c == Char.ofNat 0x2029)

/-- JavaScript `parseInt(ds, 10)` on a string of ASCII digits. -/
def digitsToNat (ds : List Char) : Nat :=
  ds.foldl (fun n c => n * 10 + (c.toNat - 48)) 0

/-- JavaScript `String(n).padStart(2, '0')` for a natural number. -/
def pad2 (n : Nat) : String :=
  let s := toString n
  if s.length < 2 then "0" ++ s else s

/-- Result of `parseSubdomain`: the five captured groups, with the prefix,
root and suffix lowercased and the index parsed as an integer.  Field
`pfx` embeds the source's `prefix` field. -/
structure Parsed where
  pfx : String
  number : Nat
  root : String
  tld : String
  path : String
deriving DecidableEq, Repr

/-- Case-insensitively match a literal lowercase pattern at the head of a
character list, returning the remainder. -/
def matchCI : List Char → List Char → Option (List Char)
  | [], cs => some cs
  | p :: ps, c :: cs => if lowerC c = p then matchCI ps cs else none
  | _ :: _, [] => none

/-- The `^https?:\/\/` part of `SUBDOMAIN_RE` (case-insensitive scheme,
optional `s`, then the literal `://`). -/
def stripScheme (cs : List Char) : Option (List Char) :=
  match matchCI ['h', 't', 't', 'p'] cs with
  | none => none
  | some r =>
    let r2 := match r with
      | c :: rr => if lowerC c = 's' then rr else r
      | [] => r
    match r2 with
    | a :: b :: d :: rr => if a = ':' ∧ b = '/' ∧ d = '/' then some rr else none
    | _ => none

/-- The `(org|net|to)` alternation of `SUBDOMAIN_RE` (case-insensitive);
returns the lowercased matched suffix and the remainder.  The three
alternatives start with distinct letters, so the regex alternation is
deterministic. -/
def tldSplit (cs : List Char) : Option (String × List Char) :=
  match cs with
  | c1 :: c2 :: c3 :: r =>
    if lowerC c1 = 'o' ∧ lowerC c2 = 'r' ∧ lowerC c3 = 'g' then some ("org", r)
    else if lowerC c1 = 'n' ∧ lowerC c2 = 'e' ∧ lowerC c3 = 't' then some ("net", r)
    else if lowerC c1 = 't' ∧ lowerC c2 = 'o' then some ("to", c3 :: r)
    else none
  | [c1, c2] =>
    if lowerC c1 = 't' ∧ lowerC c2 = 'o' then some ("to", []) else none
  | _ => none

/-- Function `parseSubdomain` from `src/fixer.js`: match `src` against
`SUBDOMAIN_RE = /^https?:\/\/([a-z]+)(\d{1,3})\.([a-z0-9\-]+)\.(org|net|to)(\/.*)$/i`
and extract `{prefix, number, root, tld, path}`, or return `null` on any
mismatch.  The adjacent capture groups have disjoint character classes,
so each group is the maximal span of its class. -/
def parseSubdomain (src : String) : Option Parsed :=
  match stripScheme src.data with
  | none => none
  | some r0 =>
    let pfxL := r0.takeWhile isAlphaC
    let r1 := r0.dropWhile isAlphaC
    if pfxL.isEmpty then none else
    let ds := r1.takeWhile isDigitC
    let r2 := r1.dropWhile isDigitC
    if ds.length < 1 ∨ 3 < ds.length then none else
    match r2 with
    | c2 :: r3 =>
      if c2 = '.' then
        let rt := r3.takeWhile isRootC
        let r4 := r3.dropWhile isRootC
        if rt.isEmpty then none else
        match r4 with
        | c4 :: r5 =>
          if c4 = '.' then
            match tldSplit r5 with
            | none => none
            | some (tldName, r6) =>
              match r6 with
              | c6 :: ps =>
                if c6 = '/' then
                  if ps.all isUrlDotC then
                    some ⟨⟨pfxL.map lowerC⟩, digitsToNat ds, ⟨rt.map lowerC⟩,
                          tldName, ⟨'/' :: ps⟩⟩
                  else none
                else none
              | [] => none
          else none
        | [] => none
      else none
    | [] => none

/-- The URL template shared by `generateCandidates`, `fixImage` and
`preemptiveFix`:
`https://<p><String(n).padStart(2,'0')>.<r>.<t><path>`. -/
def renderUrl (p : String) (n : Nat) (r t path : String) : String :=
  "https://" ++ p ++ pad2 n ++ "." ++ r ++ "." ++ t ++ path

/-- Rendering a full parsed address back to a URL. -/
def renderAddr (a : Parsed) : String :=
  renderUrl a.pfx a.number a.root a.tld a.path

/-! ## Candidate generation (first variant: strict k/n filter) -/

/-- Constant `MAX_ATTEMPTS = 15` of the first script variant. -/
def MAX_ATTEMPTS : Nat := 15

/-- Constant `MAX_SERVER_NUM = 15`. -/
def MAX_SERVER_NUM : Nat := 15

/-- Constant `FALLBACK_ROOTS` of the first script variant. -/
def FALLBACK_ROOTS : List String :=
  ["mbdny.org", "mbrtz.org", "bato.to", "mbwbm.org", "mbznp.org", "mbqgu.org"]

/-- One `serverCache` entry: `{prefix, number, root, tld}` of the last
working server for a resource group (`pfx` embeds `prefix`). -/
structure Cached where
  pfx : String
  number : Nat
  root : String
  tld : String
deriving DecidableEq, Repr

/-- JavaScript `split(sep)` for a one-character separator. -/
def splitOnC (sep : Char) : List Char → List (List Char)
  | [] => [[]]
  | c :: rest =>
    let r := splitOnC sep rest
    if c = sep then [] :: r
    else
      match r with
      | h :: t => (c :: h) :: t
      | [] => [[c]]

/-- JavaScript `join(sep)` for a one-character separator. -/
def joinC (sep : Char) : List (List Char) → List Char
  | [] => []
  | [x] => x
  | x :: y :: t => x ++ sep :: joinC sep (y :: t)

/-- The key `url.split('/').slice(0, 3).join('/')`: the scheme-plus-host cluster
key used by both `probeUrl` and the `fixImage` candidate loop. -/
def clusterKey (url : String) : String :=
  ⟨joinC '/' ((splitOnC '/' url.data).take 3)⟩

/-- The `add` closure of the first variant's `generateCandidates`:
drops any prefix other than `'k'`/`'n'`, otherwise emits the rendered
URL tagged with its priority. -/
def addCand (path p : String) (n : Nat) (r t : String) (pr : Nat) :
    List (String × Nat) :=
  if p ≠ "k" ∧ p ≠ "n" then [] else [(renderUrl p n r t path, pr)]

/-- Priority 0 block of `generateCandidates`: the success-cache entry (the
`serverCache.get(cacheKey)` lookup is the `cache` argument). -/
def cacheCand (a : Parsed) (cache : Option Cached) : List (String × Nat) :=
  match cache with
  | some cc => addCand a.path cc.pfx cc.number cc.root cc.tld 0
  | none => []

/-- Priority 1 block: the instant `k`/`n` prefix swap. -/
def swapCand (a : Parsed) : List (String × Nat) :=
  if a.pfx = "k" then addCand a.path "n" a.number a.root a.tld 1
  else addCand a.path "k" a.number a.root a.tld 1

/-- Priority 2 block: the `n`-server index sweep over `0..MAX_SERVER_NUM`,
skipping the original index. -/
def sweepCand (a : Parsed) : List (String × Nat) :=
  ((List.range (MAX_SERVER_NUM + 1)).filter (fun i => i ≠ a.number)).flatMap
    (fun i => addCand a.path "n" i a.root a.tld 2)

/-- One entry of the fallback-roots block: split the root at `'.'`, and when
it has exactly two parts and differs from the current root, emit the `n`
mirror candidate with priority 4. -/
def rootCand (a : Parsed) (root : String) : List (String × Nat) :=
  match splitOnC '.' root.data with
  | [p0, p1] =>
    if (⟨p0⟩ : String) ≠ a.root then addCand a.path "n" a.number ⟨p0⟩ ⟨p1⟩ 4
    else []
  | _ => []

/-- Priority 4 block: the `FALLBACK_ROOTS` mirror sweep. -/
def rootCands (a : Parsed) : List (String × Nat) :=
  FALLBACK_ROOTS.flatMap (rootCand a)

/-- The raw candidate list of the first variant's `generateCandidates`, in
emission order, before sorting, deduplication and truncation. -/
def candPairs (a : Parsed) (cache : Option Cached) : List (String × Nat) :=
  cacheCand a cache ++ swapCand a ++ sweepCand a ++ rootCands a

/-- Stable insertion of one candidate into a priority-sorted list. -/
def insertByPr (x : String × Nat) : List (String × Nat) → List (String × Nat)
  | [] => [x]
  | y :: ys => if x.2 ≤ y.2 then x :: y :: ys else y :: insertByPr x ys

/-- The sort `candidates.sort((a, b) => a.priority - b.priority)`: a stable sort by
priority (JavaScript's sort is stable, and a stable comparator sort has a
unique result, so any stable implementation embeds it). -/
def sortByPr : List (String × Nat) → List (String × Nat)
  | [] => []
  | x :: xs => insertByPr x (sortByPr xs)

/-- Deduplication `[...new Set(l)]`, keeping the first occurrence. -/
def dedupAux : List String → List String → List String
  | [], _ => []
  | x :: xs, seen => if x ∈ seen then dedupAux xs seen else x :: dedupAux xs (x :: seen)

/-- Pair-level image of `dedupAux`, used to reason about the priority of
the first (kept) occurrence of each URL. -/
def dedupPairsAux : List (String × Nat) → List String → List (String × Nat)
  | [], _ => []
  | q :: qs, seen =>
    if q.1 ∈ seen then dedupPairsAux qs seen else q :: dedupPairsAux qs (q.1 :: seen)

/-- The first variant's `generateCandidates`: sort by priority, project to
URLs, deduplicate, truncate to `MAX_ATTEMPTS`. -/
def generateCandidates (a : Parsed) (cache : Option Cached) : List String :=
  (dedupAux ((sortByPr (candPairs a cache)).map Prod.fst) []).take MAX_ATTEMPTS

/-- The URLs dropped by the final `slice(0, MAX_ATTEMPTS)` truncation. -/
def droppedCandidates (a : Parsed) (cache : Option Cached) : List String :=
  (dedupAux ((sortByPr (candPairs a cache)).map Prod.fst) []).drop MAX_ATTEMPTS

/-- The priority class of a URL among the raw candidates: the minimum
priority it was emitted with (1000 if it is not a candidate at all). -/
def candPriority (a : Parsed) (cache : Option Cached) (u : String) : Nat :=
  (((candPairs a cache).filter (fun q => q.1 = u)).map (fun q => q.2)).foldr min 1000

/-! ## Candidate generation (fourth variant: wide prefix alphabet) -/

namespace V4

/-- Constant `MAX_ATTEMPTS = 30` of the fourth script variant. -/
def MAX_ATTEMPTS : Nat := 30

/-- Constant `FALLBACK_PREFIXES` of the fourth variant. -/
def FALLBACK_PREFIXES : List String := ["n", "x", "t", "s", "w", "m", "c", "u", "k"]

/-- Constant `FALLBACK_ROOTS` of the fourth variant. -/
def FALLBACK_ROOTS : List String :=
  ["mbdny.org", "mbrtz.org", "bato.to", "mbwbm.org", "mbznp.org", "mbqgu.org",
   "mpfip.org", "mpizz.org", "mpmok.org", "mpqom.org", "mpqsc.org", "mprnm.org",
   "mpubn.org", "mpujj.org", "mpvim.org", "mpypl.org"]

/-- The fourth variant's `add` closure: no prefix filter. -/
def addCand (path p : String) (n : Nat) (r t : String) (pr : Nat) :
    List (String × Nat) :=
  [(renderUrl p n r t path, pr)]

/-- The raw candidate list of the fourth variant's `generateCandidates`. -/
def candPairs (a : Parsed) (cache : Option Cached) : List (String × Nat) :=
  (match cache with
   | some cc => addCand a.path cc.pfx cc.number cc.root cc.tld 0
   | none => [])
  ++ (if a.pfx = "k" then
        addCand a.path "n" a.number a.root a.tld 1
        ++ addCand a.path "x" a.number a.root a.tld 1
        ++ addCand a.path "t" a.number a.root a.tld 1
      else [])
  ++ FALLBACK_PREFIXES.flatMap (fun letter =>
      if letter ≠ a.pfx ∧ letter ≠ "k" ∧ letter ≠ "n" then
        addCand a.path letter a.number a.root a.tld 2
      else [])
  ++ ((List.range 6).filter (fun i => i ≠ a.number)).flatMap
      (fun i => addCand a.path a.pfx i a.root a.tld 3)
  ++ FALLBACK_ROOTS.flatMap (fun root =>
      match splitOnC '.' root.data with
      | [p0, p1] =>
        if (⟨p0⟩ : String) ≠ a.root then
          addCand a.path a.pfx a.number ⟨p0⟩ ⟨p1⟩ 4
          ++ (if a.pfx = "k" then addCand a.path "n" a.number ⟨p0⟩ ⟨p1⟩ 4 else [])
        else []
      | _ => [])
  ++ ((List.range' 6 10).filter (fun i => i ≠ a.number)).flatMap
      (fun i => addCand a.path a.pfx i a.root a.tld 5)

/-- The fourth variant's `generateCandidates`. -/
def generateCandidates (a : Parsed) (cache : Option Cached) : List String :=
  (dedupAux ((sortByPr (candPairs a cache)).map Prod.fst) []).take MAX_ATTEMPTS

end V4

/-! ## Probe, failure cache, and the resolver (`fixImage`) -/

/-- What the network would do for one probe: the image loads with the given
rendered dimensions, fires an error event, or the deadline timer fires
first. -/
inductive NetOutcome where
  | loadOk (w h : Nat)
  | loadErr
  | timeout
deriving DecidableEq, Repr

/-- A probe settles either by resolving (`ok`) or rejecting with one of the
reason strings `"cached-fail"`, `"timeout"`, `"error"`, `"empty"`. -/
inductive ProbeRes where
  | ok
  | fail (e : String)
deriving DecidableEq, Repr

/-- Function `probeUrl` from `src/fixer.js`, with the `failedCache` passed and
returned explicitly and the asynchronous race decided by the `net`
oracle: reject `cached-fail` immediately when the host cluster is cached
as failed, otherwise settle according to `net`, adding the cluster to the
cache on every failure. -/
def probeModel (cache : List String) (url : String) (net : NetOutcome) :
    ProbeRes × List String :=
  let key := clusterKey url
  if key ∈ cache then (.fail "cached-fail", cache)
  else
    match net with
    | .timeout => (.fail "timeout", key :: cache)
    | .loadErr => (.fail "error", key :: cache)
    | .loadOk w h =>
      if 1 < w ∨ 1 < h then (.ok, cache) else (.fail "empty", key :: cache)

/-- Result of one candidate loop of `fixImage`: first success wins, or the
list is exhausted (`earlyAbort = true` when the `break` on a late timeout
fired). -/
inductive PassRes where
  | success (url : String)
  | exhausted (last : Option String) (earlyAbort : Bool)
deriving DecidableEq, Repr

/-- The candidate loop of `fixImage`: iterate candidates sequentially,
skipping clusters already in the failure cache, probing the rest, and
breaking out early when a probe fails with `'timeout'` at loop index
`i > 6`.  Returns the pass result, the final failure cache, and the trace
of probed candidates as `(loop index, outcome)` pairs. -/
def runPass (outs : Nat → NetOutcome) :
    List String → List String → Nat → Option String → List (Nat × String) →
    PassRes × List String × List (Nat × String)
  | [], cache, _, last, tr => (.exhausted last false, cache, tr)
  | url :: rest, cache, i, last, tr =>
    if clusterKey url ∈ cache then runPass outs rest cache (i + 1) last tr
    else
      match probeModel cache url (outs i) with
      | (.ok, c2) => (.success url, c2, tr ++ [(i, "ok")])
      | (.fail e, c2) =>
        if e = "timeout" ∧ 6 < i then (.exhausted (some e) true, c2, tr ++ [(i, e)])
        else runPass outs rest c2 (i + 1) (some e) (tr ++ [(i, e)])

/-- The per-image state `fixImage` reads and writes: the `src` attribute,
the `dataset.batoFixing` string flag, and membership in the
`processingImages` in-flight set. -/
structure ImgState where
  src : String
  fixing : String
  inProc : Bool
deriving DecidableEq, Repr

/-- The re-entry guard at the top of `fixImage`:
`processingImages.has(img) || batoFixing === "done" ||
(batoFixing === "true" && !isRetry)`. -/
def entryBlocked (st : ImgState) (isRetry : Bool) : Bool :=
  st.inProc || st.fixing == "done" || (st.fixing == "true" && !isRetry)

/-- Everything one `fixImage` call produces: the new image state, the new
`serverCache` entry for this resource group, the new failure cache,
whether a candidate search ran, the recorded `lastError`, and whether the
delayed-retry branch was taken. -/
structure RunResult where
  st : ImgState
  server : Option Cached
  failedC : List String
  searched : Bool
  lastErr : Option String
  retrySched : Bool
deriving DecidableEq, Repr

/-- One `fixImage(img, isRetry)` call: the entry guard, marking in-flight
and `batoFixing = "true"`, parsing the current address (aborting while
the flag is still `"true"` when it does not parse), the candidate loop,
and the success/retry/failed epilogues. -/
def fixImageRun (isRetry : Bool) (st : ImgState) (server : Option Cached)
    (fc : List String) (outs : Nat → NetOutcome) : RunResult :=
  if entryBlocked st isRetry then ⟨st, server, fc, false, none, false⟩
  else
    match parseSubdomain st.src with
    | none => ⟨⟨st.src, "true", false⟩, server, fc, false, none, false⟩
    | some a =>
      match runPass outs (generateCandidates a server) fc 0 none [] with
      | (.success url, fc2, _) =>
        let server2 := match parseSubdomain url with
          | some sp => some ⟨sp.pfx, sp.number, sp.root, sp.tld⟩
          | none => server
        ⟨⟨url, "done", false⟩, server2, fc2, true, none, false⟩
      | (.exhausted last _, fc2, _) =>
        if !isRetry && last == some "timeout" then
          ⟨⟨st.src, "retry", false⟩, server, fc2, true, last, true⟩
        else
          ⟨⟨st.src, "failed", false⟩, server, fc2, true, last, false⟩

/-- A first `fixImage` call plus, when its timeout-retry branch fired and
the image is still broken after the delay, the single scheduled retry
call (`isRetry = true`).  Returns the final result and how many retry
passes were scheduled in total (counting any the retry call itself would
schedule). -/
def fixImageProcess (st : ImgState) (server : Option Cached) (fc : List String)
    (o1 o2 : Nat → NetOutcome) (stillBroken : Bool) : RunResult × Nat :=
  let r1 := fixImageRun false st server fc o1
  if r1.retrySched then
    if stillBroken then
      let r2 := fixImageRun true r1.st r1.server r1.failedC o2
      (r2, 1 + (if r2.retrySched then 1 else 0))
    else (r1, 1)
  else (r1, 0)

/-- The URL substitution of `preemptiveFix`: applies only to a `'k'`
address, prefers the cached server for the group, and coerces any cached
prefix other than `'k'`/`'n'` back to `'n'`. -/
def preemptiveFixUrl (a : Parsed) (cache : Option Cached) : Option String :=
  if a.pfx ≠ "k" then none
  else
    let c := match cache with
      | some cc => cc
      | none => ⟨"n", a.number, a.root, a.tld⟩
    let p := if c.pfx ≠ "k" ∧ c.pfx ≠ "n" then "n" else c.pfx
    some (renderUrl p c.number c.root c.tld a.path)

/-! ## Basic lemmas about the list helpers -/

theorem mem_insertByPr {x q : String × Nat} {l : List (String × Nat)} :
    q ∈ insertByPr x l ↔ q = x ∨ q ∈ l := by
  induction l with
  | nil => simp [insertByPr]
  | cons y ys ih =>
    unfold insertByPr
    split
    · simp
    · simp only [List.mem_cons, ih]
      tauto

theorem mem_sortByPr {q : String × Nat} {l : List (String × Nat)} :
    q ∈ sortByPr l ↔ q ∈ l := by
  induction l with
  | nil => simp [sortByPr]
  | cons y ys ih => simp [sortByPr, mem_insertByPr, ih]

theorem sortByPr_eq_self {l : List (String × Nat)}
    (h : l.Pairwise (fun x y => x.2 ≤ y.2)) : sortByPr l = l := by
  induction l with
  | nil => rfl
  | cons x xs ih =>
    rcases List.pairwise_cons.mp h with ⟨hx, hxs⟩
    unfold sortByPr
    rw [ih hxs]
    cases xs with
    | nil => rfl
    | cons y ys => simp [insertByPr, hx y (by simp)]

theorem mem_dedupAux {u : String} {l seen : List String} :
    u ∈ dedupAux l seen → u ∈ l := by
  induction l generalizing seen with
  | nil => simp [dedupAux]
  | cons x xs ih =>
    unfold dedupAux
    split
    · exact fun h => List.mem_cons_of_mem _ (ih h)
    · intro h
      rcases List.mem_cons.mp h with h | h
      · simp [h]
      · exact List.mem_cons_of_mem _ (ih h)

theorem dedupPairsAux_map_fst (ps : List (String × Nat)) (seen : List String) :
    dedupAux (ps.map Prod.fst) seen = (dedupPairsAux ps seen).map Prod.fst := by
  induction ps generalizing seen with
  | nil => rfl
  | cons q qs ih =>
    unfold dedupAux dedupPairsAux
    simp only [List.map_cons]
    split
    · rw [ih]
    · simp [ih]

theorem dedupPairsAux_sublist (ps : List (String × Nat)) (seen : List String) :
    (dedupPairsAux ps seen).Sublist ps := by
  induction ps generalizing seen with
  | nil => simp [dedupPairsAux]
  | cons q qs ih =>
    unfold dedupPairsAux
    split
    · exact (ih seen).trans (List.sublist_cons_self q qs)
    · exact (ih (q.1 :: seen)).cons₂ q

theorem not_mem_seen_of_mem_dedupPairsAux {q : String × Nat}
    {ps : List (String × Nat)} {seen : List String}
    (h : q ∈ dedupPairsAux ps seen) : q.1 ∉ seen := by
  induction ps generalizing seen with
  | nil => simp [dedupPairsAux] at h
  | cons p qs ih =>
    unfold dedupPairsAux at h
    split at h
    · exact ih h
    · rcases List.mem_cons.mp h with rfl | h
      · assumption
      · exact fun hs => ih h (List.mem_cons_of_mem _ hs)

theorem nodup_fst_dedupPairsAux (ps : List (String × Nat)) (seen : List String) :
    ((dedupPairsAux ps seen).map Prod.fst).Nodup := by
  induction ps generalizing seen with
  | nil => simp [dedupPairsAux]
  | cons q qs ih =>
    unfold dedupPairsAux
    split
    · exact ih seen
    · simp only [List.map_cons, List.nodup_cons]
      refine ⟨?_, ih (q.1 :: seen)⟩
      intro hmem
      rcases List.mem_map.mp hmem with ⟨r, hr, hr1⟩
      exact not_mem_seen_of_mem_dedupPairsAux hr (by simp [hr1])

theorem min_snd_of_mem_dedupPairsAux {ps : List (String × Nat)} {seen : List String}
    (hps : ps.Pairwise (fun x y => x.2 ≤ y.2)) :
    ∀ q ∈ dedupPairsAux ps seen, ∀ r ∈ ps, r.1 = q.1 → q.2 ≤ r.2 := by
  induction ps generalizing seen with
  | nil => simp [dedupPairsAux]
  | cons p qs ih =>
    rcases List.pairwise_cons.mp hps with ⟨hp, hqs⟩
    intro q hq r hr hr1
    unfold dedupPairsAux at hq
    by_cases hmem : p.1 ∈ seen
    · rw [if_pos hmem] at hq
      rcases List.mem_cons.mp hr with rfl | hr
      · exact absurd (hr1 ▸ hmem) (not_mem_seen_of_mem_dedupPairsAux hq)
      · exact ih hqs q hq r hr hr1
    · rw [if_neg hmem] at hq
      rcases List.mem_cons.mp hq with rfl | hq
      · rcases List.mem_cons.mp hr with rfl | hr
        · exact le_refl _
        · exact hp r hr
      · rcases List.mem_cons.mp hr with rfl | hr
        · have h2 := not_mem_seen_of_mem_dedupPairsAux hq
          simp [hr1] at h2
        · exact ih hqs q hq r hr hr1

theorem foldr_min_le {l : List Nat} {x : Nat} (h : x ∈ l) (d : Nat) :
    l.foldr min d ≤ x := by
  induction l with
  | nil => simp at h
  | cons y ys ih =>
    rcases List.mem_cons.mp h with rfl | h
    · exact min_le_left _ _
    · exact le_trans (min_le_right _ _) (ih h)

theorem le_foldr_min {l : List Nat} {k d : Nat} (h : ∀ x ∈ l, k ≤ x) (hd : k ≤ d) :
    k ≤ l.foldr min d := by
  induction l with
  | nil => exact hd
  | cons y ys ih =>
    exact le_min (h y (by simp)) (ih fun x hx => h x (List.mem_cons_of_mem _ hx))

/-! ## Structure of the raw candidate list -/

theorem snd_of_mem_addCand {path p : String} {n : Nat} {r t : String} {pr : Nat}
    {q : String × Nat} (h : q ∈ addCand path p n r t pr) : q.2 = pr := by
  unfold addCand at h
  split at h
  · simp at h
  · rw [List.mem_singleton] at h
    subst h
    rfl

theorem mem_addCand {path p : String} {n : Nat} {r t : String} {pr : Nat}
    {q : String × Nat} (h : q ∈ addCand path p n r t pr) :
    (p = "k" ∨ p = "n") ∧ q = (renderUrl p n r t path, pr) := by
  unfold addCand at h
  split at h
  · simp at h
  · next hc =>
    rw [List.mem_singleton] at h
    exact ⟨by tauto, h⟩

theorem snd_of_mem_cacheCand {a : Parsed} {c : Option Cached} {q : String × Nat}
    (h : q ∈ cacheCand a c) : q.2 = 0 := by
  unfold cacheCand at h
  rcases c with _ | cc
  · simp at h
  · exact snd_of_mem_addCand h

theorem snd_of_mem_swapCand {a : Parsed} {q : String × Nat}
    (h : q ∈ swapCand a) : q.2 = 1 := by
  unfold swapCand at h
  split at h <;> exact snd_of_mem_addCand h

theorem snd_of_mem_sweepCand {a : Parsed} {q : String × Nat}
    (h : q ∈ sweepCand a) : q.2 = 2 := by
  unfold sweepCand at h
  rcases List.mem_flatMap.mp h with ⟨i, _, hq⟩
  exact snd_of_mem_addCand hq

theorem mem_rootCand {a : Parsed} {root : String} {q : String × Nat}
    (h : q ∈ rootCand a root) :
    ∃ r t, q ∈ addCand a.path "n" a.number r t 4 := by
  unfold rootCand at h
  rcases hs : splitOnC '.' root.data with _ | ⟨p0, _ | ⟨p1, _ | _⟩⟩ <;>
    simp only [hs] at h
  · simp at h
  · simp at h
  · split at h
    · exact ⟨⟨p0⟩, ⟨p1⟩, h⟩
    · simp at h
  · simp at h

theorem snd_of_mem_rootCands {a : Parsed} {q : String × Nat}
    (h : q ∈ rootCands a) : q.2 = 4 := by
  unfold rootCands at h
  rcases List.mem_flatMap.mp h with ⟨root, _, hq⟩
  rcases mem_rootCand hq with ⟨r, t, hq2⟩
  exact snd_of_mem_addCand hq2

theorem pairwise_const_snd {l : List (String × Nat)} {k : Nat}
    (h : ∀ q ∈ l, q.2 = k) : l.Pairwise (fun x y => x.2 ≤ y.2) :=
  List.pairwise_of_forall_mem_list fun x hx y hy => by rw [h x hx, h y hy]

theorem candPairs_sorted (a : Parsed) (c : Option Cached) :
    (candPairs a c).Pairwise (fun x y => x.2 ≤ y.2) := by
  unfold candPairs
  refine List.pairwise_append.mpr
    ⟨List.pairwise_append.mpr
      ⟨List.pairwise_append.mpr
        ⟨pairwise_const_snd fun q hq => snd_of_mem_cacheCand hq,
         pairwise_const_snd fun q hq => snd_of_mem_swapCand hq, ?_⟩,
       pairwise_const_snd fun q hq => snd_of_mem_sweepCand hq, ?_⟩,
     pairwise_const_snd fun q hq => snd_of_mem_rootCands hq, ?_⟩
  · intro x hx y hy
    rw [snd_of_mem_cacheCand hx, snd_of_mem_swapCand hy]
    omega
  · intro x hx y hy
    rw [snd_of_mem_sweepCand hy]
    rcases List.mem_append.mp hx with hx | hx
    · rw [snd_of_mem_cacheCand hx]; omega
    · rw [snd_of_mem_swapCand hx]; omega
  · intro x hx y hy
    rw [snd_of_mem_rootCands hy]
    rcases List.mem_append.mp hx with hx | hx
    · rcases List.mem_append.mp hx with hx | hx
      · rw [snd_of_mem_cacheCand hx]; omega
      · rw [snd_of_mem_swapCand hx]; omega
    · rw [snd_of_mem_sweepCand hx]; omega

theorem candPairs_snd_le (a : Parsed) (c : Option Cached) :
    ∀ q ∈ candPairs a c, q.2 ≤ 4 := by
  intro q hq
  unfold candPairs at hq
  rcases List.mem_append.mp hq with hq | hq
  · rcases List.mem_append.mp hq with hq | hq
    · rcases List.mem_append.mp hq with hq | hq
      · rw [snd_of_mem_cacheCand hq]; omega
      · rw [snd_of_mem_swapCand hq]; omega
    · rw [snd_of_mem_sweepCand hq]; omega
  · rw [snd_of_mem_rootCands hq]

theorem shape_of_mem_candPairs {a : Parsed} {c : Option Cached} {q : String × Nat}
    (h : q ∈ candPairs a c) :
    ∃ p n r t, (p = "k" ∨ p = "n") ∧ q.1 = renderUrl p n r t a.path := by
  unfold candPairs at h
  have base : ∀ {path p : String} {n : Nat} {r t : String} {pr : Nat},
      q ∈ addCand path p n r t pr → path = a.path →
      ∃ p2 n2 r2 t2, (p2 = "k" ∨ p2 = "n") ∧ q.1 = renderUrl p2 n2 r2 t2 a.path := by
    intro path p n r t pr hq hpath
    rcases mem_addCand hq with ⟨hkn, rfl⟩
    exact ⟨p, n, r, t, hkn, by rw [hpath]⟩
  rcases List.mem_append.mp h with h | h
  · rcases List.mem_append.mp h with h | h
    · rcases List.mem_append.mp h with h | h
      · unfold cacheCand at h
        rcases c with _ | cc
        · simp at h
        · exact base h rfl
      · unfold swapCand at h
        split at h <;> exact base h rfl
    · unfold sweepCand at h
      rcases List.mem_flatMap.mp h with ⟨i, _, hq⟩
      exact base hq rfl
  · unfold rootCands at h
    rcases List.mem_flatMap.mp h with ⟨root, _, hq⟩
    rcases mem_rootCand hq with ⟨r, t, hq2⟩
    exact base hq2 rfl

/-- C1: for every parsed address and every cache state, `generateCandidates`
returns the post-sort deduplicated list truncated to `MAX_ATTEMPTS`, so it
has at most `MAX_ATTEMPTS` entries, contains no two equal rendered address
strings, is ordered by nondecreasing priority class (`candPriority`, the
lowest priority a URL was emitted with), and every URL dropped by the
truncation has a priority class at least as large as every kept URL. -/
theorem generateCandidates_bounded_nodup_sorted (a : Parsed) (c : Option Cached) :
    generateCandidates a c ++ droppedCandidates a c =
      dedupAux ((sortByPr (candPairs a c)).map Prod.fst) [] ∧
    (generateCandidates a c).length ≤ MAX_ATTEMPTS ∧
    (generateCandidates a c).Nodup ∧
    (generateCandidates a c).Pairwise
      (fun u v => candPriority a c u ≤ candPriority a c v) ∧
    ∀ u ∈ generateCandidates a c, ∀ v ∈ droppedCandidates a c,
      candPriority a c u ≤ candPriority a c v := by
  have hsorted := candPairs_sorted a c
  have hss : sortByPr (candPairs a c) = candPairs a c := sortByPr_eq_self hsorted
  have hdd : dedupAux ((candPairs a c).map Prod.fst) [] =
      (dedupPairsAux (candPairs a c) []).map Prod.fst :=
    dedupPairsAux_map_fst (candPairs a c) []
  have hmin : ∀ q ∈ dedupPairsAux (candPairs a c) [],
      candPriority a c q.1 = q.2 := by
    intro q hq
    have hqps : q ∈ candPairs a c := (dedupPairsAux_sublist (candPairs a c) []).subset hq
    have hq2mem : q.2 ∈ ((candPairs a c).filter (fun r => r.1 = q.1)).map
        (fun r => r.2) :=
      List.mem_map.mpr ⟨q, List.mem_filter.mpr ⟨hqps, by simp⟩, rfl⟩
    apply le_antisymm
    · exact foldr_min_le hq2mem 1000
    · apply le_foldr_min
      · intro x hx
        rcases List.mem_map.mp hx with ⟨r, hr, rfl⟩
        have hr2 := List.mem_filter.mp hr
        exact min_snd_of_mem_dedupPairsAux hsorted q hq r hr2.1 (by simpa using hr2.2)
      · have := candPairs_snd_le a c q hqps
        omega
  have hpdd : (dedupPairsAux (candPairs a c) []).Pairwise (fun x y => x.2 ≤ y.2) :=
    List.Pairwise.sublist (dedupPairsAux_sublist (candPairs a c) []) hsorted
  have hpfst : ((dedupPairsAux (candPairs a c) []).map Prod.fst).Pairwise
      (fun u v => candPriority a c u ≤ candPriority a c v) := by
    apply List.pairwise_map.mpr
    refine List.Pairwise.imp_of_mem ?_ hpdd
    intro x y hx hy hxy
    rw [hmin x hx, hmin y hy]
    exact hxy
  have hnd : ((dedupPairsAux (candPairs a c) []).map Prod.fst).Nodup :=
    nodup_fst_dedupPairsAux (candPairs a c) []
  have hgen : generateCandidates a c =
      ((dedupPairsAux (candPairs a c) []).map Prod.fst).take MAX_ATTEMPTS := by
    unfold generateCandidates
    rw [hss, hdd]
  have hdrop : droppedCandidates a c =
      ((dedupPairsAux (candPairs a c) []).map Prod.fst).drop MAX_ATTEMPTS := by
    unfold droppedCandidates
    rw [hss, hdd]
  refine ⟨?_, ?_, ?_, ?_, ?_⟩
  · rw [hgen, hdrop, List.take_append_drop, hss, hdd]
  · rw [hgen]
    exact List.length_take_le _ _
  · rw [hgen]
    exact List.Nodup.sublist (List.take_sublist _ _) hnd
  · rw [hgen]
    exact List.Pairwise.sublist (List.take_sublist _ _) hpfst
  · rw [hgen, hdrop]
    have hsplit : (((dedupPairsAux (candPairs a c) []).map Prod.fst).take MAX_ATTEMPTS
        ++ ((dedupPairsAux (candPairs a c) []).map Prod.fst).drop MAX_ATTEMPTS).Pairwise
        (fun u v => candPriority a c u ≤ candPriority a c v) := by
      rw [List.take_append_drop]
      exact hpfst
    exact (List.pairwise_append.mp hsplit).2.2

/-- C10: every candidate URL produced by the first variant's
`generateCandidates` is rendered with host prefix `'k'` or `'n'`; a
success-cache entry with any other prefix is silently dropped (the raw
candidate list is the same as with no cache entry at all); and
`preemptiveFix` coerces a cached prefix other than `'k'`/`'n'` to `'n'`
before rendering the swap. -/
theorem generateCandidates_kn_only (a : Parsed) (c : Option Cached) :
    (∀ u ∈ generateCandidates a c,
        ∃ n r t, u = renderUrl "k" n r t a.path ∨ u = renderUrl "n" n r t a.path) ∧
    (∀ cc : Cached, cc.pfx ≠ "k" → cc.pfx ≠ "n" →
        candPairs a (some cc) = candPairs a none) ∧
    (∀ cc : Cached, a.pfx = "k" → cc.pfx ≠ "k" → cc.pfx ≠ "n" →
        preemptiveFixUrl a (some cc) =
          some (renderUrl "n" cc.number cc.root cc.tld a.path)) := by
  refine ⟨?_, ?_, ?_⟩
  · intro u hu
    have h1 : u ∈ dedupAux ((sortByPr (candPairs a c)).map Prod.fst) [] :=
      List.take_subset _ _ hu
    have h2 := mem_dedupAux h1
    rcases List.mem_map.mp h2 with ⟨q, hq, rfl⟩
    have hq2 : q ∈ candPairs a c := mem_sortByPr.mp hq
    rcases shape_of_mem_candPairs hq2 with ⟨p, n, r, t, hkn, hshape⟩
    rcases hkn with rfl | rfl
    · exact ⟨n, r, t, Or.inl hshape⟩
    · exact ⟨n, r, t, Or.inr hshape⟩
  · intro cc h1 h2
    simp [candPairs, cacheCand, addCand, h1, h2]
  · intro cc ha h1 h2
    simp [preemptiveFixUrl, ha, h1, h2]

/-- Witness for C10 at a concrete address and a concrete stale cache entry
with prefix `'x'`. -/
theorem generateCandidates_kn_only_w :
    candPairs ⟨"k", 3, "mbdny", "org", "/p"⟩ (some ⟨"x", 5, "r", "org"⟩) =
      candPairs ⟨"k", 3, "mbdny", "org", "/p"⟩ none ∧
    preemptiveFixUrl ⟨"k", 3, "mbdny", "org", "/p"⟩ (some ⟨"x", 5, "r", "org"⟩) =
      some (renderUrl "n" 5 "r" "org" "/p") ∧
    (∃ n r t, "https://n03.mbdny.org/p" = renderUrl "k" n r t "/p" ∨
        "https://n03.mbdny.org/p" = renderUrl "n" n r t "/p") :=
  ⟨(generateCandidates_kn_only ⟨"k", 3, "mbdny", "org", "/p"⟩
      (some ⟨"x", 5, "r", "org"⟩)).2.1 ⟨"x", 5, "r", "org"⟩ (by decide) (by decide),
   (generateCandidates_kn_only ⟨"k", 3, "mbdny", "org", "/p"⟩
      (some ⟨"x", 5, "r", "org"⟩)).2.2 ⟨"x", 5, "r", "org"⟩ rfl (by decide) (by decide),
   (generateCandidates_kn_only ⟨"k", 3, "mbdny", "org", "/p"⟩ none).1
      "https://n03.mbdny.org/p" (by decide)⟩

/-- C4: `probeUrl` consults the failure cache first: on a cached host
cluster it rejects with `cached-fail` without touching the cache or the
network (the result is the same for every network outcome); on every
failing outcome of an uncached cluster the cluster is added to the cache;
and the cache only ever grows. -/
theorem probeUrl_cache_contract (cache : List String) (url : String) (net : NetOutcome) :
    (clusterKey url ∈ cache →
        probeModel cache url net = (ProbeRes.fail "cached-fail", cache)) ∧
    (clusterKey url ∉ cache → ∀ e, (probeModel cache url net).1 = ProbeRes.fail e →
        (probeModel cache url net).2 = clusterKey url :: cache) ∧
    cache ⊆ (probeModel cache url net).2 := by
  refine ⟨?_, ?_, ?_⟩
  · intro h
    simp [probeModel, h]
  · intro h e he
    cases net with
    | loadOk w ht =>
      by_cases hwh : 1 < w ∨ 1 < ht
      · simp [probeModel, h, hwh] at he
      · simp [probeModel, h, hwh]
    | loadErr => simp [probeModel, h]
    | timeout => simp [probeModel, h]
  · by_cases h : clusterKey url ∈ cache
    · simp [probeModel, h]
    · cases net with
      | loadOk w ht =>
        by_cases hwh : 1 < w ∨ 1 < ht
        · simp [probeModel, h, hwh]
        · simp only [probeModel, h, if_false, hwh, if_neg]
          exact List.subset_cons_self _ _
      | loadErr =>
        simp only [probeModel, h, if_false]
        exact List.subset_cons_self _ _
      | timeout =>
        simp only [probeModel, h, if_false]
        exact List.subset_cons_self _ _

/-- Witness for C4: a cached cluster short-circuits, and a timeout on an
uncached cluster records the cluster. -/
theorem probeUrl_cache_contract_w :
    probeModel ["https://k01.x.org"] "https://k01.x.org/p/q" NetOutcome.loadErr =
      (ProbeRes.fail "cached-fail", ["https://k01.x.org"]) ∧
    (probeModel [] "https://k01.x.org/p/q" NetOutcome.timeout).2 = ["https://k01.x.org"] :=
  ⟨(probeUrl_cache_contract ["https://k01.x.org"] "https://k01.x.org/p/q"
      NetOutcome.loadErr).1 (by decide),
   ((probeUrl_cache_contract [] "https://k01.x.org/p/q" NetOutcome.timeout).2.1
      (by decide) "timeout" (by decide)).trans (by decide)⟩

/-- C3: the `fixImage` entry guard makes duplicate invocation a no-op: a
call on a resource that is in the in-flight set, or already marked
`"done"` (Succeeded), returns with no state change, no search, and no
retry scheduling. -/
theorem fixImage_reentrant_noop (isRetry : Bool) (st : ImgState)
    (server : Option Cached) (fc : List String) (outs : Nat → NetOutcome) :
    (st.inProc = true →
        fixImageRun isRetry st server fc outs = ⟨st, server, fc, false, none, false⟩) ∧
    (st.fixing = "done" →
        fixImageRun isRetry st server fc outs = ⟨st, server, fc, false, none, false⟩) := by
  constructor
  · intro h
    simp [fixImageRun, entryBlocked, h]
  · intro h
    simp [fixImageRun, entryBlocked, h]

/-- Witness for C3: an in-flight resource and a `"done"` resource are both
left untouched. -/
theorem fixImage_reentrant_noop_w :
    fixImageRun false ⟨"https://k03.mbdny.org/x", "true", true⟩ none []
        (fun _ => NetOutcome.loadErr) =
      ⟨⟨"https://k03.mbdny.org/x", "true", true⟩, none, [], false, none, false⟩ ∧
    fixImageRun false ⟨"https://k03.mbdny.org/x", "done", false⟩ none []
        (fun _ => NetOutcome.loadErr) =
      ⟨⟨"https://k03.mbdny.org/x", "done", false⟩, none, [], false, none, false⟩ :=
  ⟨(fixImage_reentrant_noop false ⟨"https://k03.mbdny.org/x", "true", true⟩ none []
      (fun _ => NetOutcome.loadErr)).1 rfl,
   (fixImage_reentrant_noop false ⟨"https://k03.mbdny.org/x", "done", false⟩ none []
      (fun _ => NetOutcome.loadErr)).2 rfl⟩

/-- C9 (amended): when the entry guard passes but the resource's current
address does not parse, `fixImage` aborts: the address, the success cache
and the failure cache are unchanged, no search runs, and the resource is
removed from the in-flight set — but the string flag is left at
`"true"`, so a later non-retry `fixImage` call on the same resource is
rejected by the entry guard (rather than reaching its own parse check). -/
theorem fixImage_parse_abort (st : ImgState) (server : Option Cached)
    (fc : List String) (outs : Nat → NetOutcome)
    (h1 : entryBlocked st false = false) (h2 : parseSubdomain st.src = none) :
    fixImageRun false st server fc outs =
      ⟨⟨st.src, "true", false⟩, server, fc, false, none, false⟩ ∧
    entryBlocked ⟨st.src, "true", false⟩ false = true := by
  constructor
  · simp [fixImageRun, h1, h2]
  · simp [entryBlocked]

/-- Counterexample for C9 as stated: after an aborted call on an
unparseable address, the per-resource flag is left at `"true"` and the
entry guard blocks the next non-retry call, so the aborted call does
block a later resolve call (the claim said it would not). -/
theorem fixImage_parse_abort_cex :
    (fixImageRun false ⟨"notaurl", "", false⟩ none []
        (fun _ => NetOutcome.loadErr)).st.fixing = "true" ∧
    entryBlocked (fixImageRun false ⟨"notaurl", "", false⟩ none []
        (fun _ => NetOutcome.loadErr)).st false = true ∧
    fixImageRun false (fixImageRun false ⟨"notaurl", "", false⟩ none []
        (fun _ => NetOutcome.loadErr)).st none [] (fun _ => NetOutcome.loadErr) =
      ⟨⟨"notaurl", "true", false⟩, none, [], false, none, false⟩ := by
  decide

/-- Witness for the amended C9 at a concrete unparseable address. -/
theorem fixImage_parse_abort_w :
    fixImageRun false ⟨"file:///tmp/x.jpg", "", false⟩ none []
        (fun _ => NetOutcome.timeout) =
      ⟨⟨"file:///tmp/x.jpg", "true", false⟩, none, [], false, none, false⟩ ∧
    entryBlocked ⟨"file:///tmp/x.jpg", "true", false⟩ false = true :=
  fixImage_parse_abort ⟨"file:///tmp/x.jpg", "", false⟩ none []
    (fun _ => NetOutcome.timeout) (by decide) (by decide)

/-- A retry-pass `fixImage` call never takes the retry-scheduling branch:
the `!isRetry` conjunct is false, so an exhausted retry pass always marks
the resource failed. -/
theorem retryRun_no_resched (st : ImgState) (server : Option Cached)
    (fc : List String) (outs : Nat → NetOutcome) :
    (fixImageRun true st server fc outs).retrySched = false := by
  unfold fixImageRun
  split
  · rfl
  · split
    · rfl
    · split
      · rfl
      · simp

/-- Case analysis of a first-pass (`isRetry = false`) `fixImage` call: the
retry branch is taken exactly when the pass searched, did not succeed,
and the recorded last error is `'timeout'`; otherwise an unsuccessful
search marks the resource `"failed"`. -/
theorem fixImageRun_false_char (st : ImgState) (server : Option Cached)
    (fc : List String) (outs : Nat → NetOutcome) :
    ((fixImageRun false st server fc outs).retrySched = true →
        (fixImageRun false st server fc outs).lastErr = some "timeout" ∧
        (fixImageRun false st server fc outs).st.fixing = "retry") ∧
    ((fixImageRun false st server fc outs).searched = true →
     (fixImageRun false st server fc outs).st.fixing ≠ "done" →
        ((fixImageRun false st server fc outs).lastErr = some "timeout" →
            (fixImageRun false st server fc outs).retrySched = true) ∧
        ((fixImageRun false st server fc outs).lastErr ≠ some "timeout" →
            (fixImageRun false st server fc outs).retrySched = false ∧
            (fixImageRun false st server fc outs).st.fixing = "failed")) := by
  cases hg : entryBlocked st false with
  | true => simp [fixImageRun, hg]
  | false =>
    cases hp : parseSubdomain st.src with
    | none => simp [fixImageRun, hg, hp]
    | some a =>
      rcases hr : runPass outs (generateCandidates a server) fc 0 none [] with ⟨res, fc2, tr⟩
      cases res with
      | success url => simp [fixImageRun, hg, hp, hr]
      | exhausted last ea =>
        by_cases hl : last = some "timeout"
        · simp [fixImageRun, hg, hp, hr, hl]
        · simp [fixImageRun, hg, hp, hr, hl]

/-- C2: over a first `fixImage` call plus its (at most one) scheduled
retry: at most one retry pass is ever scheduled; a retry-pass call never
schedules another; when the first pass searches, fails, and its last
recorded error is `'timeout'`, exactly one retry is scheduled and the
resource is flagged `"retry"`; when the last recorded error is anything
else, zero retries are scheduled and the resource is marked `"failed"`. -/
theorem fixImage_retry_policy (st : ImgState) (server : Option Cached)
    (fc : List String) (o1 o2 : Nat → NetOutcome) (sb : Bool) :
    (fixImageProcess st server fc o1 o2 sb).2 ≤ 1 ∧
    (∀ st2 sv2 fc2, (fixImageRun true st2 sv2 fc2 o2).retrySched = false) ∧
    ((fixImageRun false st server fc o1).searched = true →
     (fixImageRun false st server fc o1).st.fixing ≠ "done" →
        ((fixImageRun false st server fc o1).lastErr = some "timeout" →
            (fixImageProcess st server fc o1 o2 sb).2 = 1 ∧
            (fixImageRun false st server fc o1).st.fixing = "retry") ∧
        ((fixImageRun false st server fc o1).lastErr ≠ some "timeout" →
            (fixImageProcess st server fc o1 o2 sb).2 = 0 ∧
            (fixImageRun false st server fc o1).st.fixing = "failed")) := by
  have hchar := fixImageRun_false_char st server fc o1
  refine ⟨?_, fun st2 sv2 fc2 => retryRun_no_resched st2 sv2 fc2 o2, ?_⟩
  · unfold fixImageProcess
    cases hrs : (fixImageRun false st server fc o1).retrySched
    · simp [hrs]
    · cases sb
      · simp [hrs]
      · simp [hrs, retryRun_no_resched]
  · intro hsearch hdone
    constructor
    · intro hto
      have h1 : (fixImageRun false st server fc o1).retrySched = true :=
        (hchar.2 hsearch hdone).1 hto
      refine ⟨?_, (hchar.1 h1).2⟩
      unfold fixImageProcess
      cases sb
      · simp [h1]
      · simp [h1, retryRun_no_resched]
    · intro hto
      have h0 : (fixImageRun false st server fc o1).retrySched = false :=
        ((hchar.2 hsearch hdone).2 hto).1
      refine ⟨?_, ((hchar.2 hsearch hdone).2 hto).2⟩
      unfold fixImageProcess
      simp [h0]

/-- Witness for C2: with every probe timing out, the first pass schedules
exactly one retry; with every probe erroring, no retry is scheduled and
the resource is marked failed. -/
theorem fixImage_retry_policy_w :
    (fixImageProcess ⟨"https://k03.mbdny.org/a/b/c/1.jpg", "", false⟩ none []
        (fun _ => NetOutcome.timeout) (fun _ => NetOutcome.timeout) true).2 = 1 ∧
    (fixImageProcess ⟨"https://k03.mbdny.org/a/b/c/1.jpg", "", false⟩ none []
        (fun _ => NetOutcome.loadErr) (fun _ => NetOutcome.loadErr) true).2 = 0 ∧
    (fixImageRun false ⟨"https://k03.mbdny.org/a/b/c/1.jpg", "", false⟩ none []
        (fun _ => NetOutcome.loadErr)).st.fixing = "failed" := by
  refine ⟨((fixImage_retry_policy ⟨"https://k03.mbdny.org/a/b/c/1.jpg", "", false⟩
      none [] (fun _ => NetOutcome.timeout) (fun _ => NetOutcome.timeout) true).2.2
      (by decide) (by decide)).1 (by decide) |>.1, ?_, ?_⟩
  · exact ((fixImage_retry_policy ⟨"https://k03.mbdny.org/a/b/c/1.jpg", "", false⟩
      none [] (fun _ => NetOutcome.loadErr) (fun _ => NetOutcome.loadErr) true).2.2
      (by decide) (by decide)).2 (by decide) |>.1
  · exact ((fixImage_retry_policy ⟨"https://k03.mbdny.org/a/b/c/1.jpg", "", false⟩
      none [] (fun _ => NetOutcome.loadErr) (fun _ => NetOutcome.loadErr) true).2.2
      (by decide) (by decide)).2 (by decide) |>.2

/-- C8 (amended): the candidate loop abandons its remaining candidates
early only when the probe that triggers the abort fails with `'timeout'`
at loop position greater than 6 (the eighth candidate or later); earlier
candidates may have failed with any outcome — every failure advances the
loop position that is compared against 6, and only the final, triggering
failure must be a timeout. -/
theorem runPass_earlyAbort_only_late_timeout (outs : Nat → NetOutcome) :
    ∀ (cands cache : List String) (i : Nat) (last : Option String)
      (tr : List (Nat × String)) (l : Option String),
      (runPass outs cands cache i last tr).1 = PassRes.exhausted l true →
      ∃ tr0 j, (runPass outs cands cache i last tr).2.2 = tr0 ++ [(j, "timeout")] ∧
        6 < j ∧ l = some "timeout" := by
  intro cands
  induction cands with
  | nil =>
    intro cache i last tr l h
    simp [runPass] at h
  | cons url rest ih =>
    intro cache i last tr l h
    unfold runPass at h ⊢
    by_cases hmem : clusterKey url ∈ cache
    · rw [if_pos hmem] at h ⊢
      exact ih _ _ _ _ _ h
    · rw [if_neg hmem] at h ⊢
      rcases hp : probeModel cache url (outs i) with ⟨res, c2⟩
      cases res with
      | ok =>
        simp only [hp] at h
        simp at h
      | fail e =>
        simp only [hp] at h ⊢
        by_cases hbr : e = "timeout" ∧ 6 < i
        · rw [if_pos hbr] at h ⊢
          have hl : l = some "timeout" := by
            have h2 := (PassRes.exhausted.injEq _ _ _ _).mp h.symm
            exact h2.1.trans (by rw [hbr.1])
          exact ⟨tr, i, by rw [hbr.1], hbr.2, hl⟩
        · rw [if_neg hbr] at h ⊢
          exact ih _ _ _ _ _ h

/-- Counterexample for C8 as stated: with ten candidates whose first seven
probes fail with transport errors and whose eighth times out, the pass
aborts early (the ninth candidate, which would have loaded, is never
probed) even though only a single candidate — not six to ten consecutive
ones — failed with a timeout. -/
theorem runPass_earlyAbort_cex :
    (runPass (fun i => if i = 7 then NetOutcome.timeout
        else if i ≤ 6 then NetOutcome.loadErr else NetOutcome.loadOk 100 100)
      ((List.range 10).map (fun i => renderUrl "n" i "mbdny" "org" "/p"))
      [] 0 none []).1 = PassRes.exhausted (some "timeout") true ∧
    ((runPass (fun i => if i = 7 then NetOutcome.timeout
        else if i ≤ 6 then NetOutcome.loadErr else NetOutcome.loadOk 100 100)
      ((List.range 10).map (fun i => renderUrl "n" i "mbdny" "org" "/p"))
      [] 0 none []).2.2.filter (fun q => q.2 == "timeout")).length = 1 ∧
    (runPass (fun i => if i = 7 then NetOutcome.timeout
        else if i ≤ 6 then NetOutcome.loadErr else NetOutcome.loadOk 100 100)
      ((List.range 10).map (fun i => renderUrl "n" i "mbdny" "org" "/p"))
      [] 0 none []).2.2.length = 8 := by
  decide

/-- Witness for the amended C8 at the same concrete aborting pass. -/
theorem runPass_earlyAbort_only_late_timeout_w :
    ∃ tr0 j,
      (runPass (fun i => if i = 7 then NetOutcome.timeout
          else if i ≤ 6 then NetOutcome.loadErr else NetOutcome.loadOk 100 100)
        ((List.range 10).map (fun i => renderUrl "n" i "mbdny" "org" "/p"))
        [] 0 none []).2.2 = tr0 ++ [(j, "timeout")] ∧
      6 < j ∧ (some "timeout" : Option String) = some "timeout" :=
  runPass_earlyAbort_only_late_timeout
    (fun i => if i = 7 then NetOutcome.timeout
      else if i ≤ 6 then NetOutcome.loadErr else NetOutcome.loadOk 100 100)
    ((List.range 10).map (fun i => renderUrl "n" i "mbdny" "org" "/p"))
    [] 0 none [] (some "timeout") (by decide)

/-- C7: for `https://k03.mbdny.org/a/b/c/1.jpg` with an empty cache, the
fourth variant's `generateCandidates` starts with the reliable-prefix
substitution `https://n03.mbdny.org/a/b/c/1.jpg`, followed by the
other-prefix-letter variants at the same index, then the index-sweep
variants, then the mirror-root variants (cut mid-class by the
`MAX_ATTEMPTS = 30` truncation), in that order. -/
theorem generateCandidatesV4_example :
    parseSubdomain "https://k03.mbdny.org/a/b/c/1.jpg" =
      some ⟨"k", 3, "mbdny", "org", "/a/b/c/1.jpg"⟩ ∧
    V4.generateCandidates ⟨"k", 3, "mbdny", "org", "/a/b/c/1.jpg"⟩ none =
      ["https://n03.mbdny.org/a/b/c/1.jpg"]
      ++ (["x", "t", "s", "w", "m", "c", "u"].map
            (fun p => renderUrl p 3 "mbdny" "org" "/a/b/c/1.jpg"))
      ++ ([0, 1, 2, 4, 5].map
            (fun i => renderUrl "k" i "mbdny" "org" "/a/b/c/1.jpg"))
      ++ (([("mbrtz", "org"), ("bato", "to"), ("mbwbm", "org"), ("mbznp", "org"),
            ("mbqgu", "org"), ("mpfip", "org"), ("mpizz", "org"), ("mpmok", "org"),
            ("mpqom", "org")].flatMap
            (fun rt => [renderUrl "k" 3 rt.1 rt.2 "/a/b/c/1.jpg",
                        renderUrl "n" 3 rt.1 rt.2 "/a/b/c/1.jpg"])).take 17) := by
  constructor
  · decide
  · decide

/-! ## Character-level lemmas for the address parser -/

theorem toNat_ofNat_valid (n : Nat) (h : n < 55296) : (Char.ofNat n).toNat = n := by
  simp only [Char.ofNat, Nat.isValidChar, Char.ofNatAux, Char.toNat, UInt32.toNat, h]
  rfl

theorem lowerC_toNat (c : Char) :
    (65 ≤ c.toNat ∧ c.toNat ≤ 90 → (lowerC c).toNat = c.toNat + 32) ∧
    (¬(65 ≤ c.toNat ∧ c.toNat ≤ 90) → lowerC c = c) := by
  constructor
  · intro h
    unfold lowerC
    rw [if_pos h]
    exact toNat_ofNat_valid _ (by omega)
  · intro h
    unfold lowerC
    rw [if_neg h]

theorem isAlphaC_lowerC {c : Char} (h : isAlphaC c = true) :
    isAlphaC (lowerC c) = true := by
  have hh : (97 ≤ c.toNat ∧ c.toNat ≤ 122) ∨ (65 ≤ c.toNat ∧ c.toNat ≤ 90) := by
    simpa [isAlphaC, Bool.or_eq_true, Bool.and_eq_true, decide_eq_true_eq] using h
  by_cases hu : 65 ≤ c.toNat ∧ c.toNat ≤ 90
  · have ht := (lowerC_toNat c).1 hu
    simp only [isAlphaC, ht, Bool.or_eq_true, Bool.and_eq_true, decide_eq_true_eq]
    omega
  · rw [(lowerC_toNat c).2 hu]
    exact h

theorem isDigitC_not_alpha {c : Char} (h : isDigitC c = true) :
    isAlphaC c = false := by
  have hh : 48 ≤ c.toNat ∧ c.toNat ≤ 57 := by
    simpa [isDigitC, Bool.and_eq_true, decide_eq_true_eq] using h
  simp only [isAlphaC, Bool.or_eq_false_iff, Bool.and_eq_false_iff,
    decide_eq_false_iff_not]
  omega

theorem isRootC_lowerC {c : Char} (h : isRootC c = true) :
    isRootC (lowerC c) = true := by
  have hh : (isAlphaC c = true ∨ isDigitC c = true) ∨ c = '-' := by
    simpa [isRootC, Bool.or_eq_true] using h
  rcases hh with (h2 | h2) | h2
  · simp [isRootC, isAlphaC_lowerC h2]
  · have hd : 48 ≤ c.toNat ∧ c.toNat ≤ 57 := by
      simpa [isDigitC, Bool.and_eq_true, decide_eq_true_eq] using h2
    rw [(lowerC_toNat c).2 (by omega)]
    simp [isRootC, h2]
  · subst h2
    decide

theorem lowerC_idem (c : Char) : lowerC (lowerC c) = lowerC c := by
  by_cases hu : 65 ≤ c.toNat ∧ c.toNat ≤ 90
  · have ht := (lowerC_toNat c).1 hu
    exact (lowerC_toNat (lowerC c)).2 (by omega)
  · rw [(lowerC_toNat c).2 hu, (lowerC_toNat c).2 hu]

theorem map_lowerC_idem (l : List Char) : (l.map lowerC).map lowerC = l.map lowerC := by
  rw [List.map_map]
  exact List.map_congr_left fun c _ => lowerC_idem c

theorem takeWhile_append_cons (p : Char → Bool) (l₁ : List Char) (x : Char)
    (l₂ : List Char) (h1 : ∀ c ∈ l₁, p c = true) (h2 : p x = false) :
    (l₁ ++ x :: l₂).takeWhile p = l₁ ∧ (l₁ ++ x :: l₂).dropWhile p = x :: l₂ := by
  induction l₁ with
  | nil => simp [List.takeWhile_cons, List.dropWhile_cons, h2]
  | cons c cs ih =>
    have hc := h1 c (by simp)
    have ih2 := ih fun d hd => h1 d (by simp [hd])
    simp [List.takeWhile_cons, List.dropWhile_cons, hc, ih2.1, ih2.2]

theorem digitsToNat_lt {ds : List Char} (h : ∀ c ∈ ds, isDigitC c = true) :
    digitsToNat ds < 10 ^ ds.length := by
  suffices haux : ∀ (l : List Char) (acc : Nat), (∀ c ∈ l, isDigitC c = true) →
      l.foldl (fun n c => n * 10 + (c.toNat - 48)) acc < (acc + 1) * 10 ^ l.length by
    have h2 := haux ds 0 h
    simpa [digitsToNat] using h2
  intro l
  induction l with
  | nil =>
    intro acc _
    simp only [List.foldl_nil, List.length_nil, pow_zero, mul_one]
    exact Nat.lt_succ_self acc
  | cons c cs ih =>
    intro acc hall
    have hc : c.toNat - 48 ≤ 9 := by
      have h2 := hall c (by simp)
      have h3 : 48 ≤ c.toNat ∧ c.toNat ≤ 57 := by
        simpa [isDigitC, Bool.and_eq_true, decide_eq_true_eq] using h2
      omega
    have ih2 := ih (acc * 10 + (c.toNat - 48)) fun d hd => hall d (by simp [hd])
    have step : (acc * 10 + (c.toNat - 48) + 1) * 10 ^ cs.length ≤
        ((acc + 1) * 10) * 10 ^ cs.length :=
      Nat.mul_le_mul_right _ (by omega)
    have hpow : (acc + 1) * 10 ^ (cs.length + 1) = ((acc + 1) * 10) * 10 ^ cs.length := by
      ring
    simp only [List.foldl_cons, List.length_cons]
    rw [hpow]
    exact lt_of_lt_of_le ih2 step

set_option maxRecDepth 100000 in
set_option maxHeartbeats 2000000 in
theorem pad2_facts : ∀ n < 1000, digitsToNat (pad2 n).data = n ∧
    (pad2 n).data.length ≤ 3 ∧ 1 ≤ (pad2 n).data.length ∧
    (pad2 n).data.all isDigitC = true := by
  decide

/-- The shape of the scheme part of `SUBDOMAIN_RE`: `http` in any letter
case, optionally followed by `s` in any case, then the literal `://`. -/
def SchemeOk (sch : List Char) : Prop :=
  ∃ c1 c2 c3 c4, lowerC c1 = 'h' ∧ lowerC c2 = 't' ∧ lowerC c3 = 't' ∧
    lowerC c4 = 'p' ∧
    (sch = [c1, c2, c3, c4, ':', '/', '/'] ∨
     ∃ c5, lowerC c5 = 's' ∧ sch = [c1, c2, c3, c4, c5, ':', '/', '/'])

/-- The shape of the suffix part of `SUBDOMAIN_RE`: the characters lowercase
to `org`, `net` or `to`, and `name` is the corresponding lowercased
suffix. -/
def TldOk (tldL : List Char) (name : String) : Prop :=
  (tldL.map lowerC = ['o', 'r', 'g'] ∧ name = "org") ∨
  (tldL.map lowerC = ['n', 'e', 't'] ∧ name = "net") ∨
  (tldL.map lowerC = ['t', 'o'] ∧ name = "to")

theorem matchCI_sound : ∀ (pat cs r : List Char), matchCI pat cs = some r →
    ∃ pre, cs = pre ++ r ∧ pre.map lowerC = pat := by
  intro pat
  induction pat with
  | nil =>
    intro cs r h
    simp [matchCI] at h
    exact ⟨[], by simp [h], rfl⟩
  | cons p ps ih =>
    intro cs r h
    cases cs with
    | nil => simp [matchCI] at h
    | cons c cs2 =>
      unfold matchCI at h
      by_cases hc : lowerC c = p
      · rw [if_pos hc] at h
        rcases ih cs2 r h with ⟨pre, hpre, hm⟩
        exact ⟨c :: pre, by simp [hpre], by simp [hm, hc]⟩
      · rw [if_neg hc] at h
        simp at h

theorem some_pair_inj {α β : Type} {a c : α} {b d : β}
    (h : (some (a, b) : Option (α × β)) = some (c, d)) : a = c ∧ b = d := by
  have h2 := Option.some.inj h
  exact ⟨congrArg Prod.fst h2, congrArg Prod.snd h2⟩

theorem stripScheme_sound {cs r0 : List Char} (h : stripScheme cs = some r0) :
    ∃ sch, SchemeOk sch ∧ cs = sch ++ r0 := by
  unfold stripScheme at h
  rcases hm : matchCI ['h', 't', 't', 'p'] cs with _ | r
  · rw [hm] at h
    simp at h
  · rw [hm] at h
    rcases matchCI_sound _ _ _ hm with ⟨pre, rfl, hpre⟩
    rcases pre with _ | ⟨c1, _ | ⟨c2, _ | ⟨c3, _ | ⟨c4, _ | _⟩⟩⟩⟩ <;> simp at hpre
    obtain ⟨h1, h2, h3, h4⟩ := hpre
    cases r with
    | nil => simp at h
    | cons c5 rr =>
      by_cases h5 : lowerC c5 = 's'
      · simp only [h5, if_true] at h
        rcases rr with _ | ⟨a, _ | ⟨b, _ | ⟨d, rr2⟩⟩⟩
        · simp at h
        · simp at h
        · simp at h
        · by_cases hc : a = ':' ∧ b = '/' ∧ d = '/'
          · simp only [hc.1, hc.2.1, hc.2.2] at h ⊢
            simp only [and_self, if_true, reduceIte] at h
            obtain rfl := Option.some.inj h
            exact ⟨[c1, c2, c3, c4, c5, ':', '/', '/'],
              ⟨c1, c2, c3, c4, h1, h2, h3, h4, Or.inr ⟨c5, h5, rfl⟩⟩, by simp⟩
          · simp [hc] at h
      · simp only [h5, if_false] at h
        rcases rr with _ | ⟨b, _ | ⟨d, rr2⟩⟩
        · simp at h
        · simp at h
        · by_cases hc : c5 = ':' ∧ b = '/' ∧ d = '/'
          · simp only [hc.1, hc.2.1, hc.2.2] at h ⊢
            simp only [and_self, if_true, reduceIte] at h
            obtain rfl := Option.some.inj h
            exact ⟨[c1, c2, c3, c4, ':', '/', '/'],
              ⟨c1, c2, c3, c4, h1, h2, h3, h4, Or.inl rfl⟩, by simp⟩
          · simp [hc] at h

theorem stripScheme_of_schemeOk {sch : List Char} (r : List Char)
    (h : SchemeOk sch) : stripScheme (sch ++ r) = some r := by
  have hcolon : ¬ lowerC ':' = 's' := by decide
  rcases h with ⟨c1, c2, c3, c4, h1, h2, h3, h4, hcase⟩
  rcases hcase with rfl | ⟨c5, h5, rfl⟩
  · simp [stripScheme, matchCI, h1, h2, h3, h4, hcolon]
  · simp [stripScheme, matchCI, h1, h2, h3, h4, h5]

theorem tldSplit_sound {cs : List Char} {name : String} {r : List Char}
    (h : tldSplit cs = some (name, r)) :
    ∃ tldL, TldOk tldL name ∧ cs = tldL ++ r := by
  unfold tldSplit at h
  split at h
  · next c1 c2 c3 rr =>
    by_cases ho : lowerC c1 = 'o' ∧ lowerC c2 = 'r' ∧ lowerC c3 = 'g'
    · rw [if_pos ho] at h
      obtain ⟨rfl, rfl⟩ := some_pair_inj h
      exact ⟨[c1, c2, c3], Or.inl ⟨by simp [ho.1, ho.2.1, ho.2.2], rfl⟩, rfl⟩
    · rw [if_neg ho] at h
      by_cases hn : lowerC c1 = 'n' ∧ lowerC c2 = 'e' ∧ lowerC c3 = 't'
      · rw [if_pos hn] at h
        obtain ⟨rfl, rfl⟩ := some_pair_inj h
        exact ⟨[c1, c2, c3], Or.inr (Or.inl ⟨by simp [hn.1, hn.2.1, hn.2.2], rfl⟩), rfl⟩
      · rw [if_neg hn] at h
        by_cases ht : lowerC c1 = 't' ∧ lowerC c2 = 'o'
        · rw [if_pos ht] at h
          obtain ⟨rfl, rfl⟩ := some_pair_inj h
          exact ⟨[c1, c2], Or.inr (Or.inr ⟨by simp [ht.1, ht.2], rfl⟩), rfl⟩
        · rw [if_neg ht] at h
          simp at h
  · next c1 c2 =>
    by_cases ht : lowerC c1 = 't' ∧ lowerC c2 = 'o'
    · rw [if_pos ht] at h
      obtain ⟨rfl, rfl⟩ := some_pair_inj h
      exact ⟨[c1, c2], Or.inr (Or.inr ⟨by simp [ht.1, ht.2], rfl⟩), by simp⟩
    · rw [if_neg ht] at h
      simp at h
  · simp at h

theorem tldSplit_complete {tldL : List Char} {name : String} (ps : List Char)
    (h : TldOk tldL name) :
    tldSplit (tldL ++ '/' :: ps) = some (name, '/' :: ps) := by
  rcases h with ⟨hm, rfl⟩ | ⟨hm, rfl⟩ | ⟨hm, rfl⟩
  · rcases tldL with _ | ⟨a, _ | ⟨b, _ | ⟨c, _ | _⟩⟩⟩ <;> simp at hm
    obtain ⟨ha, hb, hc⟩ := hm
    simp [tldSplit, ha, hb, hc]
  · rcases tldL with _ | ⟨a, _ | ⟨b, _ | ⟨c, _ | _⟩⟩⟩ <;> simp at hm
    obtain ⟨ha, hb, hc⟩ := hm
    simp [tldSplit, ha, hb, hc]
  · rcases tldL with _ | ⟨a, _ | ⟨b, _ | _⟩⟩ <;> simp at hm
    obtain ⟨ha, hb⟩ := hm
    simp [tldSplit, ha, hb]

theorem parseSubdomain_of_parts (sch pfxL ds rt tldL ps : List Char) (name : String)
    (hsch : SchemeOk sch) (hp : pfxL ≠ []) (hpa : ∀ c ∈ pfxL, isAlphaC c = true)
    (hd1 : ds ≠ []) (hd3 : ds.length ≤ 3) (hda : ∀ c ∈ ds, isDigitC c = true)
    (hr : rt ≠ []) (hra : ∀ c ∈ rt, isRootC c = true)
    (ht : TldOk tldL name) (hps : ps.all isUrlDotC = true) :
    parseSubdomain
        ⟨sch ++ (pfxL ++ (ds ++ ('.' :: (rt ++ ('.' :: (tldL ++ ('/' :: ps)))))))⟩ =
      some ⟨⟨pfxL.map lowerC⟩, digitsToNat ds, ⟨rt.map lowerC⟩, name, ⟨'/' :: ps⟩⟩ := by
  obtain ⟨d, ds2, rfl⟩ : ∃ d ds2, ds = d :: ds2 := by
    cases ds with
    | nil => exact absurd rfl hd1
    | cons d ds2 => exact ⟨d, ds2, rfl⟩
  have hstrip := stripScheme_of_schemeOk
    (pfxL ++ ((d :: ds2) ++ ('.' :: (rt ++ ('.' :: (tldL ++ ('/' :: ps))))))) hsch
  have hspan1 := takeWhile_append_cons isAlphaC pfxL d
    (ds2 ++ ('.' :: (rt ++ ('.' :: (tldL ++ ('/' :: ps)))))) hpa
    (isDigitC_not_alpha (hda d (by simp)))
  have hspan2 := takeWhile_append_cons isDigitC (d :: ds2) '.'
    (rt ++ ('.' :: (tldL ++ ('/' :: ps)))) hda (by decide)
  have hspan3 := takeWhile_append_cons isRootC rt '.'
    (tldL ++ ('/' :: ps)) hra (by decide)
  have htld := tldSplit_complete ps ht
  have hpe : pfxL.isEmpty = false := by
    cases pfxL with
    | nil => exact absurd rfl hp
    | cons _ _ => rfl
  have hre : rt.isEmpty = false := by
    cases rt with
    | nil => exact absurd rfl hr
    | cons _ _ => rfl
  have hlen : ¬((d :: ds2).length < 1 ∨ 3 < (d :: ds2).length) := by
    simp only [List.length_cons, not_or, not_lt]
    constructor
    · omega
    · simpa using hd3
  simp only [List.cons_append] at hstrip hspan1 hspan2 hspan3
  simp only [parseSubdomain, List.cons_append, hstrip, hspan1.1, hspan1.2,
    hspan2.1, hspan2.2, hpe, hlen, hspan3.1, hspan3.2, hre, htld, hps]
  simp

theorem parseSubdomain_sound {s : String} {a : Parsed} (h : parseSubdomain s = some a) :
    ∃ sch pfxL ds rt tldL ps name,
      s.data = sch ++ (pfxL ++ (ds ++ ('.' :: (rt ++ ('.' :: (tldL ++ ('/' :: ps))))))) ∧
      SchemeOk sch ∧ pfxL ≠ [] ∧ (∀ c ∈ pfxL, isAlphaC c = true) ∧
      ds ≠ [] ∧ ds.length ≤ 3 ∧ (∀ c ∈ ds, isDigitC c = true) ∧
      rt ≠ [] ∧ (∀ c ∈ rt, isRootC c = true) ∧
      TldOk tldL name ∧ ps.all isUrlDotC = true ∧
      a = ⟨⟨pfxL.map lowerC⟩, digitsToNat ds, ⟨rt.map lowerC⟩, name, ⟨'/' :: ps⟩⟩ := by
  unfold parseSubdomain at h
  rcases hs : stripScheme s.data with _ | r0
  · rw [hs] at h
    exact Option.noConfusion h
  · rw [hs] at h
    dsimp only at h
    rcases stripScheme_sound hs with ⟨sch, hsch, hcs⟩
    by_cases hpe : (r0.takeWhile isAlphaC).isEmpty = true
    · rw [if_pos hpe] at h
      exact Option.noConfusion h
    · rw [if_neg hpe] at h
      by_cases hlen : ((r0.dropWhile isAlphaC).takeWhile isDigitC).length < 1 ∨
          3 < ((r0.dropWhile isAlphaC).takeWhile isDigitC).length
      · rw [if_pos hlen] at h
        exact Option.noConfusion h
      · rw [if_neg hlen] at h
        rcases hr2 : (r0.dropWhile isAlphaC).dropWhile isDigitC with _ | ⟨c2, r3⟩
        · rw [hr2] at h
          exact Option.noConfusion h
        · rw [hr2] at h
          dsimp only at h
          by_cases hc2 : c2 = '.'
          · subst hc2
            rw [if_pos rfl] at h
            by_cases hre : (r3.takeWhile isRootC).isEmpty = true
            · rw [if_pos hre] at h
              exact Option.noConfusion h
            · rw [if_neg hre] at h
              rcases hr4 : r3.dropWhile isRootC with _ | ⟨c4, r5⟩
              · rw [hr4] at h
                exact Option.noConfusion h
              · rw [hr4] at h
                dsimp only at h
                by_cases hc4 : c4 = '.'
                · subst hc4
                  rw [if_pos rfl] at h
                  rcases htl : tldSplit r5 with _ | ⟨name, r6⟩
                  · rw [htl] at h
                    exact Option.noConfusion h
                  · rw [htl] at h
                    dsimp only at h
                    rcases tldSplit_sound htl with ⟨tldL, htldok, rfl⟩
                    rcases hr6 : r6 with _ | ⟨c6, ps⟩
                    · rw [hr6] at h
                      exact Option.noConfusion h
                    · rw [hr6] at h
                      dsimp only at h
                      by_cases hc6 : c6 = '/'
                      · subst hc6
                        rw [if_pos rfl] at h
                        by_cases hall : ps.all isUrlDotC = true
                        · rw [if_pos hall] at h
                          refine ⟨sch, r0.takeWhile isAlphaC,
                            (r0.dropWhile isAlphaC).takeWhile isDigitC,
                            r3.takeWhile isRootC, tldL, ps, name, ?_, hsch, ?_, ?_,
                            ?_, ?_, ?_, ?_, ?_, htldok, hall, ?_⟩
                          · rw [hcs]
                            have e1 : r0 = r0.takeWhile isAlphaC ++ r0.dropWhile isAlphaC :=
                              (List.takeWhile_append_dropWhile ..).symm
                            have e2 : r0.dropWhile isAlphaC =
                                (r0.dropWhile isAlphaC).takeWhile isDigitC ++ ('.' :: r3) := by
                              rw [← hr2]
                              exact (List.takeWhile_append_dropWhile ..).symm
                            have e3 : r3 = r3.takeWhile isRootC ++
                                ('.' :: (tldL ++ ('/' :: ps))) := by
                              rw [← hr6, ← hr4]
                              exact (List.takeWhile_append_dropWhile ..).symm
                            congr 1
                            calc r0 = r0.takeWhile isAlphaC ++ r0.dropWhile isAlphaC := e1
                              _ = r0.takeWhile isAlphaC ++
                                  ((r0.dropWhile isAlphaC).takeWhile isDigitC ++ ('.' :: r3)) :=
                                congrArg (fun z => r0.takeWhile isAlphaC ++ z) e2
                              _ = r0.takeWhile isAlphaC ++
                                  ((r0.dropWhile isAlphaC).takeWhile isDigitC ++
                                    ('.' :: (r3.takeWhile isRootC ++
                                      ('.' :: (tldL ++ ('/' :: ps)))))) :=
                                congrArg (fun z => r0.takeWhile isAlphaC ++
                                  ((r0.dropWhile isAlphaC).takeWhile isDigitC ++ ('.' :: z))) e3
                          · intro hnil
                            rw [hnil] at hpe
                            exact hpe rfl
                          · exact fun c hc => List.mem_takeWhile_imp hc
                          · intro hnil
                            rw [hnil] at hlen
                            exact hlen (Or.inl (by simp))
                          · rcases not_or.mp hlen with ⟨h1, h2⟩
                            omega
                          · exact fun c hc => List.mem_takeWhile_imp hc
                          · intro hnil
                            rw [hnil] at hre
                            exact hre rfl
                          · exact fun c hc => List.mem_takeWhile_imp hc
                          · exact (Option.some.inj h).symm
                        · rw [if_neg hall] at h
                          exact Option.noConfusion h
                      · rw [if_neg hc6] at h
                        exact Option.noConfusion h
                · rw [if_neg hc4] at h
                  exact Option.noConfusion h
          · rw [if_neg hc2] at h
            exact Option.noConfusion h

/-- The address family recognized by `SUBDOMAIN_RE`, written out from the
spec's pattern `scheme://<letters><index>.<root>.<suffix><path>` with the
index width taken from the regex (`\d{1,3}`): an http or https scheme in
any case, a nonempty letter prefix, a 1-3 digit index, a dot, a nonempty
alphanumeric-or-hyphen root, a dot, an `org`/`net`/`to` suffix in any
case, and a path starting with `/` containing no line terminator. -/
def MatchesPattern (s : String) : Prop :=
  ∃ sch pfxL ds rt tldL ps name,
    s.data = sch ++ (pfxL ++ (ds ++ ('.' :: (rt ++ ('.' :: (tldL ++ ('/' :: ps))))))) ∧
    SchemeOk sch ∧ pfxL ≠ [] ∧ (∀ c ∈ pfxL, isAlphaC c = true) ∧
    ds ≠ [] ∧ ds.length ≤ 3 ∧ (∀ c ∈ ds, isDigitC c = true) ∧
    rt ≠ [] ∧ (∀ c ∈ rt, isRootC c = true) ∧
    TldOk tldL name ∧ ps.all isUrlDotC = true

/-- C6 (amended): `parseSubdomain` returns an Address exactly for the
strings of the structural pattern
`scheme://<letters><1-3 digit index>.<root>.<org|net|to><path>`
(case-insensitive), and returns absent on any structural mismatch with no
partial parse.  The regex quantifier is `\d{1,3}`, so — contrary to the
claim as stated — a single-digit index is part of the recognized
family. -/
theorem parseSubdomain_iff_pattern (s : String) :
    (∃ a, parseSubdomain s = some a) ↔ MatchesPattern s := by
  constructor
  · rintro ⟨a, h⟩
    rcases parseSubdomain_sound h with
      ⟨sch, pfxL, ds, rt, tldL, ps, name, h1, h2, h3, h4, h5, h6, h7, h8, h9, h10, h11, _⟩
    exact ⟨sch, pfxL, ds, rt, tldL, ps, name, h1, h2, h3, h4, h5, h6, h7, h8, h9, h10, h11⟩
  · rintro ⟨sch, pfxL, ds, rt, tldL, ps, name, h1, h2, h3, h4, h5, h6, h7, h8, h9, h10, h11⟩
    refine ⟨⟨⟨pfxL.map lowerC⟩, digitsToNat ds, ⟨rt.map lowerC⟩, name, ⟨'/' :: ps⟩⟩, ?_⟩
    have hs : s = ⟨sch ++ (pfxL ++ (ds ++ ('.' :: (rt ++ ('.' :: (tldL ++ ('/' :: ps)))))))⟩ :=
      String.ext h1
    rw [hs]
    exact parseSubdomain_of_parts sch pfxL ds rt tldL ps name h2 h3 h4 h5 h6 h7 h8 h9 h10 h11

/-- Counterexample for C6 as stated: the server index `3` of
`https://k3.mbdny.org/x` has fewer than 2 digits, yet `parseSubdomain`
accepts the address (the regex quantifier is `{1,3}`, not `{2,3}`). -/
theorem parseSubdomain_single_digit_cex :
    parseSubdomain "https://k3.mbdny.org/x" = some ⟨"k", 3, "mbdny", "org", "/x"⟩ := by
  decide

/-- C5: `parseSubdomain` is a function of its input (deterministic), and
rendering the parsed fields back into an address reproduces the canonical
form of the original string: the rendered address parses back to exactly
the same Address, so the original and its rendering have the same
parse. -/
theorem parse_render_roundtrip (s : String) (a : Parsed)
    (h : parseSubdomain s = some a) :
    parseSubdomain (renderAddr a) = some a ∧
    parseSubdomain (renderAddr a) = parseSubdomain s := by
  suffices h1 : parseSubdomain (renderAddr a) = some a by
    exact ⟨h1, h1.trans h.symm⟩
  rcases parseSubdomain_sound h with
    ⟨sch, pfxL, ds, rt, tldL, ps, name, h1, h2, h3, h4, h5, h6, h7, h8, h9, h10, h11, rfl⟩
  have hnum : digitsToNat ds < 1000 := by
    have hlt := digitsToNat_lt h7
    have hle : (10 : Nat) ^ ds.length ≤ 10 ^ 3 := Nat.pow_le_pow_right (by omega) h6
    calc digitsToNat ds < 10 ^ ds.length := hlt
      _ ≤ 1000 := by simpa using hle
  obtain ⟨hps1, hps2, hps3, hps4⟩ := pad2_facts (digitsToNat ds) hnum
  have hsch2 : SchemeOk "https://".data :=
    ⟨'h', 't', 't', 'p', by decide, by decide, by decide, by decide,
      Or.inr ⟨'s', by decide, by decide⟩⟩
  have hp2 : pfxL.map lowerC ≠ [] := by
    simpa using h3
  have hpa2 : ∀ c ∈ pfxL.map lowerC, isAlphaC c = true := by
    intro c hc
    rcases List.mem_map.mp hc with ⟨d, hd, rfl⟩
    exact isAlphaC_lowerC (h4 d hd)
  have hd12 : (pad2 (digitsToNat ds)).data ≠ [] := by
    intro hnil
    rw [hnil] at hps3
    simp at hps3
  have hda2 : ∀ c ∈ (pad2 (digitsToNat ds)).data, isDigitC c = true :=
    List.all_eq_true.mp hps4
  have hr2 : rt.map lowerC ≠ [] := by
    simpa using h8
  have hra2 : ∀ c ∈ rt.map lowerC, isRootC c = true := by
    intro c hc
    rcases List.mem_map.mp hc with ⟨d, hd, rfl⟩
    exact isRootC_lowerC (h9 d hd)
  have ht2 : TldOk name.data name := by
    rcases h10 with ⟨_, rfl⟩ | ⟨_, rfl⟩ | ⟨_, rfl⟩
    · exact Or.inl ⟨by decide, rfl⟩
    · exact Or.inr (Or.inl ⟨by decide, rfl⟩)
    · exact Or.inr (Or.inr ⟨by decide, rfl⟩)
  have happ := parseSubdomain_of_parts "https://".data
    (pfxL.map lowerC) (pad2 (digitsToNat ds)).data
    (rt.map lowerC) name.data ps name
    hsch2 hp2 hpa2 hd12 hps2 hda2 hr2 hra2 ht2 h11
  have hdata : (renderAddr ⟨⟨pfxL.map lowerC⟩, digitsToNat ds, ⟨rt.map lowerC⟩,
      name, ⟨'/' :: ps⟩⟩).data =
      "https://".data ++ ((pfxL.map lowerC) ++ ((pad2 (digitsToNat ds)).data ++
        ('.' :: ((rt.map lowerC) ++ ('.' :: (name.data ++ ('/' :: ps))))))) := by
    simp [renderAddr, renderUrl, String.data_append, List.append_assoc]
  have hstr : renderAddr ⟨⟨pfxL.map lowerC⟩, digitsToNat ds, ⟨rt.map lowerC⟩,
      name, ⟨'/' :: ps⟩⟩ =
      ⟨"https://".data ++ ((pfxL.map lowerC) ++ ((pad2 (digitsToNat ds)).data ++
        ('.' :: ((rt.map lowerC) ++ ('.' :: (name.data ++ ('/' :: ps)))))))⟩ :=
    String.ext hdata
  rw [hstr, happ]
  simp only [map_lowerC_idem, hps1]

/-- Witness for C5 at a concrete mixed-case address whose rendering is its
canonical lowercase form. -/
theorem parse_render_roundtrip_w :
    parseSubdomain (renderAddr ⟨"k", 3, "mbdny", "org", "/a/B.jpg"⟩) =
      some ⟨"k", 3, "mbdny", "org", "/a/B.jpg"⟩ ∧
    parseSubdomain (renderAddr ⟨"k", 3, "mbdny", "org", "/a/B.jpg"⟩) =
      parseSubdomain "HTTP://K03.MBDNY.ORG/a/B.jpg" :=
  parse_render_roundtrip "HTTP://K03.MBDNY.ORG/a/B.jpg"
    ⟨"k", 3, "mbdny", "org", "/a/B.jpg"⟩ (by decide)

/-- Witness for C1 at a concrete address: the bound, the uniqueness, and
the dropped-after-truncation comparison hold on the evaluated list. -/
theorem generateCandidates_bounded_nodup_sorted_w :
    (generateCandidates ⟨"k", 3, "mbdny", "org", "/p"⟩ none).length ≤ MAX_ATTEMPTS ∧
    (generateCandidates ⟨"k", 3, "mbdny", "org", "/p"⟩ none).Nodup ∧
    candPriority ⟨"k", 3, "mbdny", "org", "/p"⟩ none "https://n03.mbdny.org/p" ≤
      candPriority ⟨"k", 3, "mbdny", "org", "/p"⟩ none "https://n03.mbrtz.org/p" :=
  ⟨(generateCandidates_bounded_nodup_sorted ⟨"k", 3, "mbdny", "org", "/p"⟩ none).2.1,
   (generateCandidates_bounded_nodup_sorted ⟨"k", 3, "mbdny", "org", "/p"⟩ none).2.2.1,
   (generateCandidates_bounded_nodup_sorted ⟨"k", 3, "mbdny", "org", "/p"⟩ none).2.2.2.2
     "https://n03.mbdny.org/p" (by decide) "https://n03.mbrtz.org/p" (by decide)⟩

/-- Witness for the amended C6: the pattern predicate holds of a concrete
accepted address, by the characterization applied at that address. -/
theorem parseSubdomain_iff_pattern_w : MatchesPattern "https://k03.mbdny.org/x" :=
  (parseSubdomain_iff_pattern "https://k03.mbdny.org/x").mp
    ⟨⟨"k", 3, "mbdny", "org", "/x"⟩, by decide⟩
